import Mathlib

/-!
Verification of the validator scoring and weight-setting pipeline of the
crypto-influence-insights subnet repository.

The Python sources are shallowly embedded: floats that only ever carry
small exact decimal values are modelled as rationals, database tables as
association lists, and fallible operations as `Option`/`Except` values.
Definitions keep the source names (`_score_miner`, `set_weights`,
`store_miner_metadata`, ...) and mirror the control flow of the
corresponding Python function bodies.
-/

namespace CryptoInsights

/-- Digits of a Python integer literal: `none` when empty or a non-digit occurs. -/
def pyIntDigits (cs : List Char) : Option Nat :=
  match cs with
  | [] => none
  | _ =>
    cs.foldl
      (fun a c => a.bind (fun n => if c.isDigit then some (n * 10 + (c.toNat - 48)) else none))
      (some 0)

/-- Model of Python `int(s)` on a string: optional sign then decimal digits;
`none` models a raised `ValueError`. -/
def pyIntParse (s : String) : Option Int :=
  match s.toList with
  | [] => none
  | c :: rest =>
    if c = '-' then (pyIntDigits rest).map (fun n => -(n : Int))
    else if c = '+' then (pyIntDigits rest).map (fun n => (n : Int))
    else (pyIntDigits (c :: rest)).map (fun n => (n : Int))

/-- Model of Python `int(q)` on a float/rational: truncation toward zero. -/
def pyTrunc (q : ℚ) : Int :=
  if 0 ≤ q then ⌊q⌋ else -⌊-q⌋

/-- A timezone-naive Python `datetime` (microseconds omitted: the validator
normalises all dates to whole-second UTC values before storing them). -/
structure PyDateTime where
  year : Nat
  month : Nat
  day : Nat
  hour : Nat
  minute : Nat
  second : Nat
deriving DecidableEq

/-- Zero-padding to two digits, as in `datetime.isoformat`. -/
def pad2 (n : Nat) : String :=
  if n < 10 then "0" ++ toString n else toString n

/-- Zero-padding to four digits, as in `datetime.isoformat`. -/
def pad4 (n : Nat) : String :=
  if n < 10 then "000" ++ toString n
  else if n < 100 then "00" ++ toString n
  else if n < 1000 then "0" ++ toString n
  else toString n

/-- Model of `datetime.isoformat()` for a whole-second naive datetime. -/
def PyDateTime.isoformat (d : PyDateTime) : String :=
  pad4 d.year ++ "-" ++ pad2 d.month ++ "-" ++ pad2 d.day ++ "T" ++
    pad2 d.hour ++ ":" ++ pad2 d.minute ++ ":" ++ pad2 d.second

/-- Modelled from the spec: the `Discovery` payload used by the validator
(`src.subnet.protocol` in the repository snapshot only holds a stale variant
with a `tokens` field, while `validator.py` reads `discovery.token`,
`discovery.version` and `discovery.graph_db`; §6 of the spec gives the
discovery wire contract `{token, version, engine_or_dataset_link}`). -/
structure Discovery where
  token : String
  version : ℚ
  graph_db : String
deriving DecidableEq

/-- The miner-supplied `output` dictionary of a challenge answer: all keys are
optional since the miner controls the payload (`dict.get` semantics). -/
structure OutputData where
  tweet_id : Option String
  user_id : Option String
  tweet_date : Option String
  follower_count : Option String
deriving DecidableEq

/-- Modelled from the spec: `TwitterChallengesResponse` (imported by
`validator.py` but absent from the snapshot's protocol module); §4.5 and
the construction site in `_perform_challenges` give its fields. -/
structure TwitterChallengesResponse where
  token : String
  output : OutputData
deriving DecidableEq

/-- Modelled from the spec: `TwitterChallengeMinerResponse` (imported by
`validator.py` but absent from the snapshot's protocol module); §4.5 and
the construction site in `_perform_challenges` give its fields. -/
structure TwitterChallengeMinerResponse where
  token : String
  version : ℚ
  graph_db : String
  challenge_response : TwitterChallengesResponse
  failed_challenges : Nat
deriving DecidableEq

/-- The follower count `_score_miner` extracts from a response:
`int(output.get("follower_count", "0"))` with `ValueError` defaulting to 0. -/
def followerCountOf (r : TwitterChallengeMinerResponse) : Int :=
  (pyIntParse (r.challenge_response.output.follower_count.getD "0")).getD 0

/-- Embedding of `Validator._score_miner` (validator.py:225-255). -/
def scoreMiner (response : Option TwitterChallengeMinerResponse)
    (receipt_miner_multiplier : ℚ) : ℚ :=
  match response with
  | none => 0
  | some r =>
    let failed_challenges := r.failed_challenges
    let base_score : ℚ :=
      if failed_challenges = 3 then 0
      else if failed_challenges = 2 then 3/10
      else if failed_challenges = 1 then 7/10
      else 1
    let follower_count := followerCountOf r
    let follower_bonus : ℚ := if follower_count > 1000 then 1/10 else 0
    let final_score := (base_score + follower_bonus) * min 1 receipt_miner_multiplier
    min final_score 1

/-- An insertion-ordered association list standing for a Python dict from
miner UID to score. -/
abbrev ScoreDict := List (Nat × ℚ)

/-- An insertion-ordered association list standing for a Python dict from
miner UID to integer weight. -/
abbrev WeightDict := List (Nat × Int)

/-- Python `d[k] = v` on a dict: overwrite in place when the key exists
(keeping its position), append otherwise. -/
def dictSet (d : WeightDict) (k : Nat) (v : Int) : WeightDict :=
  if d.any (fun p => p.1 == k) then
    d.map (fun p => if p.1 == k then (k, v) else p)
  else d ++ [(k, v)]

/-- Python `d.get(k)` on a dict: the value of the first entry with key `k`. -/
def dictGet {α : Type} (d : List (Nat × α)) (k : Nat) : Option α :=
  (d.find? (fun p => p.1 == k)).map Prod.snd

/-- The score a score dict associates with a UID (0 when absent). -/
def scoreAt (l : ScoreDict) (u : Nat) : ℚ :=
  (dictGet l u).getD 0

/-- Stable insertion into a list sorted by score descending: the new entry
goes in front of the first entry whose score is not larger. -/
def insertByScoreDesc (p : Nat × ℚ) : ScoreDict → ScoreDict
  | [] => [p]
  | q :: rest => if p.2 < q.2 then q :: insertByScoreDesc p rest else p :: q :: rest

/-- Stable sort of a score dict by score descending. -/
def sortByScoreDesc : ScoreDict → ScoreDict
  | [] => []
  | p :: rest => insertByScoreDesc p (sortByScoreDesc rest)

/-- Modelled from the spec: `cut_to_max_allowed_weights` (imported by
`validator.py` from `validator.helpers`, which is absent from the snapshot).
§4.6: truncate the score map to at most `max_allowed` entries, dropping the
lowest scores first, ties broken stably by insertion order. -/
def cut_to_max_allowed_weights (score_dict : ScoreDict) (max_allowed : Nat) : ScoreDict :=
  (sortByScoreDesc score_dict).take max_allowed

/-- The observable outcome of one `set_weights` call: the weight map handed to
`weights_storage.store` and the list of `client.vote` calls made. -/
structure SetWeightsResult where
  stored : WeightDict
  votes : List (List Nat × List Int)

/-- The weight computed for one UID inside the `set_weights` loop
(validator.py:389-395): 0 when the score sum is 0 (no division is performed),
otherwise `int(score * 1000 / score_sum)`. -/
def voteWeight (score_sum score : ℚ) : Int :=
  if score_sum = 0 then 0 else pyTrunc (score * 1000 / score_sum)

/-- Embedding of `Validator.set_weights` (validator.py:372-407). The
previously persisted weight map (`weights_storage.read()`) is an input and the
newly persisted map plus the chain `vote` calls are outputs; `WeightsStorage`
itself is modelled from the spec (§6: `read`/`store`/idempotent `setup`
backed by a durable file), since its module is absent from the snapshot. -/
def set_weights (max_allowed : Nat) (score_dict0 : ScoreDict)
    (storedPrev : WeightDict) : SetWeightsResult :=
  let score_dict := cut_to_max_allowed_weights score_dict0 max_allowed
  let score_sum := (score_dict.map Prod.snd).sum
  let weighted_scores :=
    score_dict.foldl (fun ws p => dictSet ws p.1 (voteWeight score_sum p.2)) storedPrev
  let pruned := weighted_scores.filter (fun p => score_dict.any (fun q => q.1 == p.1))
  { stored := pruned,
    votes :=
      if pruned.length > 0 then [(pruned.map Prod.fst, pruned.map Prod.snd)] else [] }

/-- A row of the `miner_discoveries` table
(`database/models/miner_discovery.py:15-29`); the autoincrement surrogate id
is omitted, `Float` columns become rationals and timestamps become `Nat`. -/
structure MinerRecord where
  uid : Nat
  miner_key : String
  token : String
  miner_address : String
  miner_ip_port : String
  timestamp : Nat
  rank : ℚ
  failed_challenges : Int
  total_challenges : Int
  is_trusted : Int
  version : ℚ
  graph_db : String
deriving DecidableEq, Inhabited

/-- Whether a row conflicts on the `(miner_key, token)` unique index. -/
def minerMatches (r : MinerRecord) (miner_key token : String) : Bool :=
  r.miner_key == miner_key && r.token == token

/-- Embedding of `MinerDiscoveryManager.store_miner_metadata`
(miner_discovery.py:35-58): insert with the column defaults, or on conflict
with the `(miner_key, token)` index update uid, addresses, version, graph_db
and the timestamp. -/
def store_miner_metadata (db : List MinerRecord) (uid : Nat)
    (miner_key miner_address miner_ip_port token : String) (version : ℚ)
    (graph_db : String) (now : Nat) : List MinerRecord :=
  if db.any (fun r => minerMatches r miner_key token) then
    db.map (fun r =>
      if minerMatches r miner_key token then
        { r with uid := uid, miner_address := miner_address,
                 miner_ip_port := miner_ip_port, version := version,
                 graph_db := graph_db, timestamp := now }
      else r)
  else
    db ++ [{ uid := uid, miner_key := miner_key, token := token,
             miner_address := miner_address, miner_ip_port := miner_ip_port,
             timestamp := now, rank := 0, failed_challenges := 0,
             total_challenges := 0, is_trusted := 0, version := version,
             graph_db := graph_db }]

/-- Embedding of `MinerDiscoveryManager.update_miner_rank`
(miner_discovery.py:78-84): an UPDATE whose WHERE clause filters on
`miner_key` only. -/
def update_miner_rank (db : List MinerRecord) (miner_key : String)
    (new_rank : ℚ) : List MinerRecord :=
  db.map (fun r => if r.miner_key == miner_key then { r with rank := new_rank } else r)

/-- A row of the `tweet_cache` table (tweet_cache.py:12-20), without the
autoincrement surrogate id. -/
structure TweetCacheRow where
  tweet_id : String
  tweet_date : PyDateTime
deriving DecidableEq

/-- The `tweet_cache` table state. -/
abbrev TweetCacheState := List TweetCacheRow

/-- The dict returned by `get_tweet_cache`: the date is serialised with
`isoformat()`. -/
structure TweetCacheView where
  tweet_id : String
  tweet_date : String
deriving DecidableEq

/-- Embedding of `TweetCacheManager.store_tweet_cache` (tweet_cache.py:27-37):
insert, or on conflict with the unique `tweet_id` index update `tweet_date`. -/
def store_tweet_cache (db : TweetCacheState) (tweet_id : String)
    (tweet_date : PyDateTime) : TweetCacheState :=
  if db.any (fun r => r.tweet_id == tweet_id) then
    db.map (fun r =>
      if r.tweet_id == tweet_id then { r with tweet_date := tweet_date } else r)
  else db ++ [{ tweet_id := tweet_id, tweet_date := tweet_date }]

/-- Embedding of `TweetCacheManager.get_tweet_cache` (tweet_cache.py:39-50). -/
def get_tweet_cache (db : TweetCacheState) (tweet_id : String) : Option TweetCacheView :=
  (db.find? (fun r => r.tweet_id == tweet_id)).map
    (fun r => { tweet_id := r.tweet_id, tweet_date := r.tweet_date.isoformat })

/-- A row of the `user_cache` table (user_cache.py:11-20), without the
autoincrement surrogate id. -/
structure UserCacheRow where
  user_id : String
  follower_count : Int
  verified : Bool
deriving DecidableEq

/-- The `user_cache` table state. -/
abbrev UserCacheState := List UserCacheRow

/-- The dict returned by `get_user_cache`: the follower count is serialised
with `str(...)`. -/
structure UserCacheView where
  user_id : String
  follower_count : String
  verified : Bool
deriving DecidableEq

/-- Embedding of `UserCacheManager.store_user_cache` (user_cache.py:26-40):
insert, or on conflict with the unique `user_id` index update
`follower_count` and `verified`. -/
def store_user_cache (db : UserCacheState) (user_id : String)
    (follower_count : Int) (verified : Bool) : UserCacheState :=
  if db.any (fun r => r.user_id == user_id) then
    db.map (fun r =>
      if r.user_id == user_id then
        { r with follower_count := follower_count, verified := verified }
      else r)
  else db ++ [{ user_id := user_id, follower_count := follower_count,
                verified := verified }]

/-- Embedding of `UserCacheManager.get_user_cache` (user_cache.py:42-54). -/
def get_user_cache (db : UserCacheState) (user_id : String) : Option UserCacheView :=
  (db.find? (fun r => r.user_id == user_id)).map
    (fun r => { user_id := r.user_id, follower_count := toString r.follower_count,
                verified := r.verified })

/-- The result of one RPC call to a miner: a returned value or a raised
exception (timeout, malformed payload, unexpected error). -/
inductive CallResult (α : Type) where
  | ok (value : α)
  | exn (message : String)

/-- The payload of the miner's `challenge` answer as read by
`_perform_challenges` (validator.py:138-143): `challenge_data.get("token")`
and the miner-controlled `output` dict. -/
structure ChallengeData where
  token : Option String
  output : OutputData

/-- The external collaborators of `_perform_challenges` (§6 of the spec):
`get_tweet_details` composed with the created-at normalisation of
validator.py:158-163 (so it directly yields the naive-UTC datetime, `none`
for not-found), `get_user_details` (follower count and verified flag),
`fromiso` for `datetime.fromisoformat` on the expected date and
`parse_actual_date` for the `replace("Z", ...)`/`astimezone` parse of the
miner-supplied date — both return `none` where Python raises `ValueError`. -/
structure ChallengeEnv where
  get_tweet_details : String → Option PyDateTime
  get_user_details : String → Option (Int × Bool)
  fromiso : String → Option PyDateTime
  parse_actual_date : String → Option PyDateTime

/-- Embedding of `Validator._get_discovery` (validator.py:109-121): any
exception from the RPC is caught and turned into `None`. -/
def _get_discovery (call : CallResult Discovery) : Option Discovery :=
  match call with
  | .ok d => some d
  | .exn _ => none

/-- The tweet-existence block of `_perform_challenges` (validator.py:149-171):
cache first, live lookup on miss (storing through to the cache), one failed
challenge when neither finds the tweet. Yields the failure increment, the
established ground-truth date string (`expected_data["tweet_date"]`) and the
tweet-cache state afterwards. -/
def tweetPhase (env : ChallengeEnv) (tweetDb : TweetCacheState)
    (tweet_id : Option String) : Nat × Option String × TweetCacheState :=
  match tweet_id with
  | none => (1, none, tweetDb)
  | some tid =>
    match get_tweet_cache tweetDb tid with
    | some cached => (0, some cached.tweet_date, tweetDb)
    | none =>
      match env.get_tweet_details tid with
      | some d => (0, some d.isoformat, store_tweet_cache tweetDb tid d)
      | none => (1, none, tweetDb)

/-- The tweet-date validation block of `_perform_challenges`
(validator.py:174-186), run only when a ground-truth date was established.
`none` models the uncaught `AttributeError` of `None.replace(...)` when the
miner omitted `tweet_date`; a parse `ValueError` on either side counts one
failed challenge, as does a date mismatch. -/
def datePhase (env : ChallengeEnv) (failed1 : Nat)
    (expected actual : Option String) : Option Nat :=
  match expected with
  | none => some failed1
  | some ed =>
    match env.fromiso ed with
    | none => some (failed1 + 1)
    | some e =>
      match actual with
      | none => none
      | some ad =>
        match env.parse_actual_date ad with
        | none => some (failed1 + 1)
        | some a => if a ≠ e then some (failed1 + 1) else some failed1

/-- The user-existence block of `_perform_challenges` (validator.py:189-204):
cache first, live lookup on miss (storing through to the cache), one failed
challenge when neither finds the user. -/
def userPhase (env : ChallengeEnv) (userDb : UserCacheState) (failed2 : Nat)
    (user_id : Option String) : Nat × UserCacheState :=
  match user_id with
  | none => (failed2 + 1, userDb)
  | some uid =>
    match get_user_cache userDb uid with
    | some _ => (failed2, userDb)
    | none =>
      match env.get_user_details uid with
      | some fv => (failed2, store_user_cache userDb uid fv.1 fv.2)
      | none => (failed2 + 1, userDb)

/-- Embedding of `Validator._perform_challenges` (validator.py:123-223),
composed from the three blocks above. Returns the optional challenge response
together with the tweet- and user-cache states after the call (the function
writes through to both caches). The `none` response models the
`except Exception` handler: it fires for a raised RPC call and for the
`AttributeError` of `actual_tweet_date.replace(...)` when the miner omitted
`tweet_date` but the tweet was found (validator.py:178). -/
def _perform_challenges (env : ChallengeEnv) (discovery : Discovery)
    (call : CallResult ChallengeData) (tweetDb : TweetCacheState)
    (userDb : UserCacheState) :
    Option TwitterChallengeMinerResponse × TweetCacheState × UserCacheState :=
  match call with
  | .exn _ => (none, tweetDb, userDb)
  | .ok challenge_data =>
    let token := challenge_data.token.getD discovery.token
    let actual_data := challenge_data.output
    let ts := tweetPhase env tweetDb actual_data.tweet_id
    match datePhase env ts.1 ts.2.1 actual_data.tweet_date with
    | none => (none, ts.2.2, userDb)
    | some failed2 =>
      let us := userPhase env userDb failed2 actual_data.user_id
      (some { token := token, version := discovery.version,
              graph_db := discovery.graph_db,
              challenge_response := { token := token, output := actual_data },
              failed_challenges := us.1 },
       ts.2.2, us.2)

/-- Embedding of `Validator._challenge_miner` (validator.py:78-107): a failed
discovery phase yields `None`, otherwise the challenge phase result is
returned; every exception along the way is caught. -/
def _challenge_miner (env : ChallengeEnv) (dcall : CallResult Discovery)
    (ccall : CallResult ChallengeData) (tweetDb : TweetCacheState)
    (userDb : UserCacheState) :
    Option TwitterChallengeMinerResponse × TweetCacheState × UserCacheState :=
  match _get_discovery dcall with
  | none => (none, tweetDb, userDb)
  | some discovery => _perform_challenges env discovery ccall tweetDb userDb

/-- The score-map construction of `Validator.validate_step`
(validator.py:326-358): a missing response scores 0, otherwise the challenge
score times the token influence `weight / total_weight`. The receipt
multiplier and the adjusted token weights are inputs, indexed by UID and
token respectively. -/
def validate_step_scores (multiplier : Nat → ℚ) (adjusted_weights : String → ℚ)
    (total_weight : ℚ)
    (responses : List (Nat × Option TwitterChallengeMinerResponse)) : ScoreDict :=
  responses.map (fun p =>
    match p.2 with
    | none => (p.1, 0)
    | some r =>
      (p.1, scoreMiner (some r) (multiplier p.1) * (adjusted_weights r.token / total_weight)))

/-- Embedding of `Validator.validation_loop` (validator.py:409-424) as a
trace over a logical clock: `term t` is whether the cooperative termination
event is observed set at observation point `t`, and `needSleep t` is whether
the iteration starting at clock `t` finished before its interval elapsed
(so that the cancellable `terminate_event.wait` runs). The clock advances at
each of the three observation points: loop top, after `validate_step`, after
the sleep wait. The returned list records the clock value at which each
iteration (one `validate_step` call) started. -/
def validation_loop (term : Nat → Bool) (needSleep : Nat → Bool) :
    Nat → Nat → List Nat
  | 0, _ => []
  | fuel + 1, t =>
    if term t then []
    else
      t :: (if term (t + 1) then []
            else if needSleep t then
              (if term (t + 2) then []
               else validation_loop term needSleep fuel (t + 3))
            else validation_loop term needSleep fuel (t + 2))

/-- Registry state used to exhibit the token-scoping behaviour of
`update_miner_rank`: two rows sharing a miner key across two tokens. -/
def twoTokenDb : List MinerRecord :=
  [{ uid := 1, miner_key := "miner1", token := "PEPE", miner_address := "1.2.3.4",
     miner_ip_port := "8080", timestamp := 10, rank := 0, failed_challenges := 0,
     total_challenges := 0, is_trusted := 0, version := 1, graph_db := "neo4j" },
   { uid := 1, miner_key := "miner1", token := "DOGE", miner_address := "1.2.3.4",
     miner_ip_port := "8080", timestamp := 10, rank := 0, failed_challenges := 0,
     total_challenges := 0, is_trusted := 0, version := 1, graph_db := "neo4j" }]

/-- C1: with receipt multiplier 1, `_score_miner` returns the scoring-ladder
value — 1.0 for 0 failed challenges, 0.7 for 1, 0.3 for 2 and 0 for 3 when
the follower count is at most 1000 — and for 0 failures with follower count
above 1000 the +0.1 bonus is capped so the result is exactly 1.0; in all
cases the score never exceeds 1.0. -/
theorem score_miner_ladder (r : TwitterChallengeMinerResponse) :
    (r.failed_challenges = 0 → followerCountOf r ≤ 1000 → scoreMiner (some r) 1 = 1) ∧
    (r.failed_challenges = 1 → followerCountOf r ≤ 1000 → scoreMiner (some r) 1 = 7/10) ∧
    (r.failed_challenges = 2 → followerCountOf r ≤ 1000 → scoreMiner (some r) 1 = 3/10) ∧
    (r.failed_challenges = 3 → followerCountOf r ≤ 1000 → scoreMiner (some r) 1 = 0) ∧
    (r.failed_challenges = 0 → 1000 < followerCountOf r → scoreMiner (some r) 1 = 1) ∧
    scoreMiner (some r) 1 ≤ 1 := by
  refine ⟨?_, ?_, ?_, ?_, ?_, ?_⟩
  · intro h1 h2
    simp only [scoreMiner, h1, if_neg (not_lt.mpr h2)]
    norm_num
  · intro h1 h2
    simp only [scoreMiner, h1, if_neg (not_lt.mpr h2)]
    norm_num [min_def]
  · intro h1 h2
    simp only [scoreMiner, h1, if_neg (not_lt.mpr h2)]
    norm_num [min_def]
  · intro h1 h2
    simp only [scoreMiner, h1, if_neg (not_lt.mpr h2)]
    norm_num [min_def]
  · intro h1 h2
    simp only [scoreMiner, h1, if_pos h2]
    norm_num [min_def]
  · simp only [scoreMiner]
    exact min_le_right _ _

/-- Witness for C1: a concrete response with one failed challenge and 900
followers scores exactly 0.7. -/
theorem score_miner_ladder_witness :
    scoreMiner (some
      { token := "PEPE", version := 1, graph_db := "neo4j",
        challenge_response :=
          { token := "PEPE",
            output :=
              { tweet_id := some "t1", user_id := some "u1",
                tweet_date := some "2024-01-01T00:00:00",
                follower_count := some "900" } },
        failed_challenges := 1 }) 1 = 7/10 := by
  refine (score_miner_ladder _).2.1 rfl ?_
  decide

theorem mem_insertByScoreDesc {q p : Nat × ℚ} {l : ScoreDict} :
    q ∈ insertByScoreDesc p l ↔ q = p ∨ q ∈ l := by
  induction l with
  | nil => simp [insertByScoreDesc]
  | cons a rest ih =>
    simp only [insertByScoreDesc]
    split
    · simp only [List.mem_cons, ih]
      tauto
    · simp only [List.mem_cons]

theorem insertByScoreDesc_perm (p : Nat × ℚ) (l : ScoreDict) :
    List.Perm (insertByScoreDesc p l) (p :: l) := by
  induction l with
  | nil => simp [insertByScoreDesc]
  | cons a rest ih =>
    simp only [insertByScoreDesc]
    split
    · exact (ih.cons a).trans (List.Perm.swap p a rest)
    · exact List.Perm.refl _

theorem sortByScoreDesc_perm (l : ScoreDict) : List.Perm (sortByScoreDesc l) l := by
  induction l with
  | nil => exact List.Perm.refl _
  | cons a rest ih =>
    exact (insertByScoreDesc_perm a (sortByScoreDesc rest)).trans (ih.cons a)

/-- The ordering invariant of `sortByScoreDesc`: scores are non-increasing. -/
def DescSorted (l : ScoreDict) : Prop :=
  l.Pairwise (fun a b => b.2 ≤ a.2)

theorem descSorted_insert (p : Nat × ℚ) (l : ScoreDict) (h : DescSorted l) :
    DescSorted (insertByScoreDesc p l) := by
  induction l with
  | nil => simp [insertByScoreDesc, DescSorted]
  | cons a rest ih =>
    rcases List.pairwise_cons.mp h with ⟨ha, hrest⟩
    simp only [insertByScoreDesc]
    split
    · rename_i hlt
      refine List.pairwise_cons.mpr ⟨?_, ih hrest⟩
      intro b hb
      rcases mem_insertByScoreDesc.mp hb with rfl | hbr
      · exact le_of_lt hlt
      · exact ha b hbr
    · rename_i hge
      refine List.pairwise_cons.mpr ⟨?_, h⟩
      intro b hb
      rcases List.mem_cons.mp hb with rfl | hbr
      · exact not_lt.mp hge
      · exact le_trans (ha b hbr) (not_lt.mp hge)

theorem descSorted_sort (l : ScoreDict) : DescSorted (sortByScoreDesc l) := by
  induction l with
  | nil => simp [sortByScoreDesc, DescSorted]
  | cons a rest ih => exact descSorted_insert a (sortByScoreDesc rest) ih

theorem cut_mem_subset {sd : ScoreDict} {m : Nat} {p : Nat × ℚ}
    (hp : p ∈ cut_to_max_allowed_weights sd m) : p ∈ sd :=
  (sortByScoreDesc_perm sd).mem_iff.mp (List.take_subset m _ hp)

theorem cut_keys_nodup {sd : ScoreDict} (m : Nat)
    (hnd : (sd.map Prod.fst).Nodup) :
    ((cut_to_max_allowed_weights sd m).map Prod.fst).Nodup := by
  have hperm : List.Perm ((sortByScoreDesc sd).map Prod.fst) (sd.map Prod.fst) :=
    (sortByScoreDesc_perm sd).map Prod.fst
  have hsorted : ((sortByScoreDesc sd).map Prod.fst).Nodup := hperm.nodup_iff.mpr hnd
  exact ((List.take_sublist m (sortByScoreDesc sd)).map Prod.fst).nodup hsorted

/-- If the whole score dict sums to a positive value and all scores are
non-negative, the truncated dict (when non-empty) also has a positive sum:
truncation keeps the largest scores. -/
theorem cut_sum_pos {sd : ScoreDict} {m : Nat}
    (hnn : ∀ p ∈ sd, 0 ≤ p.2) (hpos : 0 < (sd.map Prod.snd).sum)
    (hne : cut_to_max_allowed_weights sd m ≠ []) :
    0 < ((cut_to_max_allowed_weights sd m).map Prod.snd).sum := by
  obtain ⟨hd, tl, hsort⟩ : ∃ hd tl, sortByScoreDesc sd = hd :: tl := by
    cases hs : sortByScoreDesc sd with
    | nil =>
      exfalso
      exact hne (by simp [cut_to_max_allowed_weights, hs])
    | cons hd tl => exact ⟨hd, tl, rfl⟩
  obtain ⟨k, hm⟩ : ∃ k, m = k + 1 := by
    cases m with
    | zero =>
      exfalso
      exact hne (by simp [cut_to_max_allowed_weights])
    | succ k => exact ⟨k, rfl⟩
  have hcut : cut_to_max_allowed_weights sd m = hd :: tl.take k := by
    simp [cut_to_max_allowed_weights, hsort, hm]
  -- some score in the dict is strictly positive
  obtain ⟨q, hq, hqpos⟩ : ∃ q ∈ sd, 0 < q.2 := by
    by_contra hall
    push_neg at hall
    have : (sd.map Prod.snd).sum = 0 := by
      apply List.sum_eq_zero
      intro x hx
      rcases List.mem_map.mp hx with ⟨p, hp, rfl⟩
      exact le_antisymm (hall p hp) (hnn p hp)
    linarith
  -- the head of the sorted list dominates that score
  have hqsort : q ∈ sortByScoreDesc sd := (sortByScoreDesc_perm sd).mem_iff.mpr hq
  have hhead : 0 < hd.2 := by
    have hpair := descSorted_sort sd
    rw [hsort] at hpair
    rcases List.pairwise_cons.mp hpair with ⟨hbound, _⟩
    rw [hsort] at hqsort
    rcases List.mem_cons.mp hqsort with rfl | hqtl
    · exact hqpos
    · exact lt_of_lt_of_le hqpos (hbound q hqtl)
  -- the remaining taken scores are non-negative
  have htail : 0 ≤ ((tl.take k).map Prod.snd).sum := by
    apply List.sum_nonneg
    intro x hx
    rcases List.mem_map.mp hx with ⟨p, hp, rfl⟩
    have hpsd : p ∈ sd := by
      apply (sortByScoreDesc_perm sd).mem_iff.mp
      rw [hsort]
      exact List.mem_cons_of_mem hd (List.take_subset k tl hp)
    exact hnn p hpsd
  rw [hcut]
  simp only [List.map_cons, List.sum_cons]
  linarith

theorem mem_keys_iff {α : Type} (d : List (Nat × α)) (u : Nat) :
    u ∈ d.map Prod.fst ↔ (dictGet d u).isSome := by
  induction d with
  | nil => simp [dictGet]
  | cons a rest ih =>
    simp only [List.map_cons, List.mem_cons, dictGet] at ih ⊢
    by_cases h : a.1 = u
    · rw [List.find?_cons_of_pos _ (by simp [h])]
      simp [h]
    · rw [List.find?_cons_of_neg _ (by simp [h])]
      rw [← ih]
      constructor
      · intro hc
        rcases hc with hc | hc
        · exact absurd hc.symm h
        · exact hc
      · intro hc
        exact Or.inr hc

theorem dictGet_of_mem_nodup {α : Type} {d : List (Nat × α)} {p : Nat × α}
    (hnd : (d.map Prod.fst).Nodup) (hp : p ∈ d) : dictGet d p.1 = some p.2 := by
  induction d with
  | nil => cases hp
  | cons a rest ih =>
    simp only [List.map_cons, List.nodup_cons] at hnd
    rcases List.mem_cons.mp hp with rfl | hpr
    · simp [dictGet, List.find?_cons_of_pos]
    · have hne : a.1 ≠ p.1 := by
        intro heq
        exact hnd.1 (heq ▸ List.mem_map_of_mem Prod.fst hpr)
      simp only [dictGet] at ih ⊢
      rw [List.find?_cons_of_neg _ (by simp [hne])]
      exact ih hnd.2 hpr

theorem dictGet_mem {α : Type} {d : List (Nat × α)} {u : Nat} {v : α}
    (h : dictGet d u = some v) : (u, v) ∈ d := by
  induction d with
  | nil => simp [dictGet] at h
  | cons a rest ih =>
    simp only [dictGet] at h ih
    by_cases ha : a.1 = u
    · have hb : (a.1 == u) = true := by simpa using ha
      simp only [List.find?_cons, hb] at h
      have h2 : a.2 = v := by simpa using h
      refine List.mem_cons.mpr (Or.inl ?_)
      rw [← ha, ← h2]
    · have hb : (a.1 == u) = false := by simpa using ha
      simp only [List.find?_cons, hb] at h
      exact List.mem_cons_of_mem a (ih h)

theorem find?_replace_self (d : WeightDict) (k : Nat) (v : Int)
    (hany : (d.any fun p => p.1 == k) = true) :
    (d.map (fun p => if p.1 == k then (k, v) else p)).find? (fun p => p.1 == k) =
      some (k, v) := by
  induction d with
  | nil => simp at hany
  | cons a rest ih =>
    by_cases h : (a.1 == k) = true
    · simp only [List.map_cons, if_pos h]
      simp [List.find?_cons]
    · have hf : (a.1 == k) = false := by simpa using h
      simp only [List.any_cons, hf, Bool.false_or] at hany
      simp only [List.map_cons, if_neg h]
      simp only [List.find?_cons, hf]
      exact ih hany

theorem find?_append_self (d : WeightDict) (k : Nat) (v : Int)
    (hnone : (d.any fun p => p.1 == k) = false) :
    (d ++ [(k, v)]).find? (fun p => p.1 == k) = some (k, v) := by
  induction d with
  | nil => simp [List.find?_cons]
  | cons a rest ih =>
    simp only [List.any_cons, Bool.or_eq_false_iff] at hnone
    simp only [List.cons_append, List.find?_cons, hnone.1]
    exact ih hnone.2

theorem find?_replace_ne (d : WeightDict) (k : Nat) (v : Int) {u : Nat} (h : u ≠ k) :
    (d.map (fun p => if p.1 == k then (k, v) else p)).find? (fun p => p.1 == u) =
      d.find? (fun p => p.1 == u) := by
  induction d with
  | nil => simp
  | cons a rest ih =>
    have hku : (k == u) = false := by simpa using Ne.symm h
    by_cases hk : (a.1 == k) = true
    · have hak : a.1 = k := by simpa using hk
      have hau : (a.1 == u) = false := by simpa using (hak ▸ Ne.symm h)
      simp only [List.map_cons, if_pos hk, List.find?_cons, hku, hau]
      exact ih
    · simp only [List.map_cons, if_neg hk]
      by_cases hu : (a.1 == u) = true
      · simp only [List.find?_cons, hu]
      · have hf : (a.1 == u) = false := by simpa using hu
        simp only [List.find?_cons, hf]
        exact ih

theorem find?_append_ne (d : WeightDict) (k : Nat) (v : Int) {u : Nat} (h : u ≠ k) :
    (d ++ [(k, v)]).find? (fun p => p.1 == u) = d.find? (fun p => p.1 == u) := by
  induction d with
  | nil =>
    have hku : (k == u) = false := by simpa using Ne.symm h
    simp [List.find?_cons, hku]
  | cons a rest ih =>
    by_cases hu : (a.1 == u) = true
    · simp only [List.cons_append, List.find?_cons, hu]
    · have hf : (a.1 == u) = false := by simpa using hu
      simp only [List.cons_append, List.find?_cons, hf]
      exact ih

theorem dictGet_dictSet_self (d : WeightDict) (k : Nat) (v : Int) :
    dictGet (dictSet d k v) k = some v := by
  unfold dictSet
  by_cases hany : (d.any fun p => p.1 == k) = true
  · rw [if_pos hany]
    simp only [dictGet]
    rw [find?_replace_self d k v hany]
    rfl
  · rw [if_neg hany]
    simp only [dictGet]
    rw [find?_append_self d k v (by rw [← Bool.not_eq_true]; exact hany)]
    rfl

theorem dictGet_dictSet_ne (d : WeightDict) {k u : Nat} (h : u ≠ k) (v : Int) :
    dictGet (dictSet d k v) u = dictGet d u := by
  unfold dictSet
  by_cases hany : (d.any fun p => p.1 == k) = true
  · rw [if_pos hany]
    simp only [dictGet]
    rw [find?_replace_ne d k v h]
  · rw [if_neg hany]
    simp only [dictGet]
    rw [find?_append_ne d k v h]

theorem mem_keys_dictSet (d : WeightDict) (k : Nat) (v : Int) (u : Nat) :
    u ∈ (dictSet d k v).map Prod.fst ↔ u = k ∨ u ∈ d.map Prod.fst := by
  by_cases h : u = k
  · subst h
    simp only [mem_keys_iff, dictGet_dictSet_self, true_or, iff_true]
    rfl
  · rw [mem_keys_iff, dictGet_dictSet_ne d h v, ← mem_keys_iff]
    tauto

theorem keys_replace (d : WeightDict) (k : Nat) (v : Int) :
    (d.map (fun p => if p.1 == k then (k, v) else p)).map Prod.fst = d.map Prod.fst := by
  induction d with
  | nil => rfl
  | cons a rest ih =>
    by_cases h : (a.1 == k) = true
    · have hak : a.1 = k := by simpa using h
      simp only [List.map_cons, if_pos h, ih]
      rw [hak]
    · simp only [List.map_cons, if_neg h, ih]

theorem nodup_keys_dictSet (d : WeightDict) (k : Nat) (v : Int)
    (hnd : (d.map Prod.fst).Nodup) : ((dictSet d k v).map Prod.fst).Nodup := by
  unfold dictSet
  by_cases hany : (d.any fun p => p.1 == k) = true
  · rw [if_pos hany, keys_replace]
    exact hnd
  · rw [if_neg hany, List.map_append]
    simp only [List.map_cons, List.map_nil]
    rw [List.nodup_append]
    refine ⟨hnd, List.nodup_singleton k, ?_⟩
    intro x hx hk
    rcases List.mem_map.mp hx with ⟨p, hp, rfl⟩
    rcases List.mem_singleton.mp hk with rfl
    apply hany
    rw [List.any_eq_true]
    exact ⟨p, hp, by simp⟩

theorem dictGet_foldl_of_not_mem (f : Nat × ℚ → Int) (l : ScoreDict)
    (d : WeightDict) (u : Nat) (hu : u ∉ l.map Prod.fst) :
    dictGet (l.foldl (fun ws p => dictSet ws p.1 (f p)) d) u = dictGet d u := by
  induction l generalizing d with
  | nil => rfl
  | cons a rest ih =>
    simp only [List.map_cons, List.mem_cons, not_or] at hu
    simp only [List.foldl_cons]
    exact (ih (dictSet d a.1 (f a)) hu.2).trans (dictGet_dictSet_ne d hu.1 (f a))

theorem dictGet_foldl_of_mem (f : Nat × ℚ → Int) (l : ScoreDict)
    (d : WeightDict) {u : Nat} {s : ℚ} (hm : (u, s) ∈ l)
    (hnd : (l.map Prod.fst).Nodup) :
    dictGet (l.foldl (fun ws p => dictSet ws p.1 (f p)) d) u = some (f (u, s)) := by
  induction l generalizing d with
  | nil => cases hm
  | cons a rest ih =>
    simp only [List.map_cons, List.nodup_cons] at hnd
    simp only [List.foldl_cons]
    rcases List.mem_cons.mp hm with heq | hm2
    · have hau : a.1 = u := by rw [← heq]
      have hkeys : u ∉ rest.map Prod.fst := hau ▸ hnd.1
      have h1 := dictGet_foldl_of_not_mem f rest (dictSet d a.1 (f a)) u hkeys
      rw [h1, ← heq]
      exact dictGet_dictSet_self d u (f (u, s))
    · exact ih _ hm2 hnd.2

theorem mem_keys_foldl (f : Nat × ℚ → Int) (l : ScoreDict) (d : WeightDict)
    (u : Nat) :
    u ∈ (l.foldl (fun ws p => dictSet ws p.1 (f p)) d).map Prod.fst ↔
      u ∈ l.map Prod.fst ∨ u ∈ d.map Prod.fst := by
  induction l generalizing d with
  | nil => simp
  | cons a rest ih =>
    simp only [List.foldl_cons, List.map_cons, List.mem_cons]
    rw [ih, mem_keys_dictSet]
    tauto

theorem nodup_keys_foldl (f : Nat × ℚ → Int) (l : ScoreDict) (d : WeightDict)
    (hnd : (d.map Prod.fst).Nodup) :
    ((l.foldl (fun ws p => dictSet ws p.1 (f p)) d).map Prod.fst).Nodup := by
  induction l generalizing d with
  | nil => exact hnd
  | cons a rest ih =>
    simp only [List.foldl_cons]
    exact ih _ (nodup_keys_dictSet d a.1 (f a) hnd)

theorem dictGet_filter_true (d : WeightDict) (P : Nat → Bool) (u : Nat)
    (hu : P u = true) :
    dictGet (d.filter (fun p => P p.1)) u = dictGet d u := by
  induction d with
  | nil => rfl
  | cons a rest ih =>
    by_cases ha : a.1 = u
    · have hb : (a.1 == u) = true := by simpa using ha
      have hPa : P a.1 = true := by rw [ha]; exact hu
      simp only [List.filter_cons, hPa, if_pos]
      simp only [dictGet, List.find?_cons, hb]
    · have hb : (a.1 == u) = false := by simpa using ha
      by_cases hPa : P a.1 = true
      · simp only [List.filter_cons, hPa, if_pos]
        simp only [dictGet, List.find?_cons, hb]
        exact ih
      · simp only [List.filter_cons]
        rw [if_neg hPa, ih]
        simp only [dictGet, List.find?_cons, hb]

theorem mem_keys_filter (d : WeightDict) (P : Nat → Bool) (u : Nat) :
    u ∈ (d.filter (fun p => P p.1)).map Prod.fst ↔
      P u = true ∧ u ∈ d.map Prod.fst := by
  induction d with
  | nil => simp
  | cons a rest ih =>
    by_cases hPa : P a.1 = true
    · simp only [List.filter_cons, hPa, if_pos, List.map_cons, List.mem_cons, ih]
      by_cases ha : u = a.1
      · rw [ha]
        simp [hPa]
      · tauto
    · simp only [List.filter_cons]
      rw [if_neg hPa]
      rw [ih]
      simp only [List.map_cons, List.mem_cons]
      constructor
      · tauto
      · rintro ⟨hPu, rfl | hmem⟩
        · exact absurd hPu hPa
        · exact ⟨hPu, hmem⟩

theorem nodup_keys_filter (d : WeightDict) (P : Nat → Bool)
    (hnd : (d.map Prod.fst).Nodup) :
    ((d.filter (fun p => P p.1)).map Prod.fst).Nodup :=
  ((List.filter_sublist d).map Prod.fst).nodup hnd

theorem mem_filter_of_mem {d : WeightDict} {P : Nat → Bool} {p : Nat × Int}
    (hp : p ∈ d.filter (fun q => P q.1)) : p ∈ d ∧ P p.1 = true := by
  have := List.mem_filter.mp hp
  exact this

theorem any_keys_iff (l : ScoreDict) (u : Nat) :
    (l.any (fun q => q.1 == u)) = true ↔ u ∈ l.map Prod.fst := by
  rw [List.any_eq_true]
  constructor
  · rintro ⟨q, hq, hb⟩
    exact List.mem_map.mpr ⟨q, hq, by simpa using hb⟩
  · intro hm
    rcases List.mem_map.mp hm with ⟨q, hq, rfl⟩
    exact ⟨q, hq, by simp⟩

theorem scoreAt_of_mem {l : ScoreDict} {p : Nat × ℚ}
    (hnd : (l.map Prod.fst).Nodup) (hp : p ∈ l) : scoreAt l p.1 = p.2 := by
  rw [scoreAt, dictGet_of_mem_nodup hnd hp]
  rfl

theorem set_weights_stored_get (m : Nat) (sd : ScoreDict) (sp : WeightDict)
    (hnd : (sd.map Prod.fst).Nodup) {p : Nat × ℚ}
    (hp : p ∈ cut_to_max_allowed_weights sd m) :
    dictGet (set_weights m sd sp).stored p.1 =
      some (voteWeight (((cut_to_max_allowed_weights sd m).map Prod.snd).sum) p.2) := by
  have hcnd := cut_keys_nodup m hnd
  have hkey : ((cut_to_max_allowed_weights sd m).any (fun q => q.1 == p.1)) = true :=
    (any_keys_iff _ _).mpr (List.mem_map_of_mem Prod.fst hp)
  have hmem : (p.1, p.2) ∈ cut_to_max_allowed_weights sd m := by
    rw [Prod.mk.eta]
    exact hp
  show dictGet
      (((cut_to_max_allowed_weights sd m).foldl
        (fun ws q => dictSet ws q.1
          (voteWeight (((cut_to_max_allowed_weights sd m).map Prod.snd).sum) q.2)) sp).filter
        (fun q => (cut_to_max_allowed_weights sd m).any (fun r => r.1 == q.1))) p.1 = _
  rw [dictGet_filter_true _ (fun u => (cut_to_max_allowed_weights sd m).any (fun r => r.1 == u))
    p.1 hkey]
  exact dictGet_foldl_of_mem _ _ sp hmem hcnd

theorem set_weights_stored_entries (m : Nat) (sd : ScoreDict) (sp : WeightDict)
    (hnd : (sd.map Prod.fst).Nodup) (hnds : (sp.map Prod.fst).Nodup)
    {p : Nat × Int} (hp : p ∈ (set_weights m sd sp).stored) :
    ∃ s, (p.1, s) ∈ cut_to_max_allowed_weights sd m ∧
      p.2 = voteWeight (((cut_to_max_allowed_weights sd m).map Prod.snd).sum) s := by
  have hcnd := cut_keys_nodup m hnd
  have hp2 : p ∈ ((cut_to_max_allowed_weights sd m).foldl
      (fun ws q => dictSet ws q.1
        (voteWeight (((cut_to_max_allowed_weights sd m).map Prod.snd).sum) q.2)) sp).filter
      (fun q => (cut_to_max_allowed_weights sd m).any (fun r => r.1 == q.1)) := hp
  have hsplit := List.mem_filter.mp hp2
  have hkeys : p.1 ∈ (cut_to_max_allowed_weights sd m).map Prod.fst :=
    (any_keys_iff _ _).mp hsplit.2
  rcases List.mem_map.mp hkeys with ⟨q, hq, hq1⟩
  have hmem : (p.1, q.2) ∈ cut_to_max_allowed_weights sd m := by
    rw [← hq1, Prod.mk.eta]
    exact hq
  have hfnd : ((((cut_to_max_allowed_weights sd m)).foldl
      (fun ws q => dictSet ws q.1
        (voteWeight (((cut_to_max_allowed_weights sd m).map Prod.snd).sum) q.2)) sp).map
        Prod.fst).Nodup :=
    nodup_keys_foldl _ _ sp hnds
  have h1 := dictGet_of_mem_nodup hfnd hsplit.1
  have h2 := dictGet_foldl_of_mem
    (fun q => voteWeight (((cut_to_max_allowed_weights sd m).map Prod.snd).sum) q.2)
    (cut_to_max_allowed_weights sd m) sp hmem hcnd
  rw [h1] at h2
  exact ⟨q.2, hmem, Option.some.inj h2⟩

theorem set_weights_keys_iff (m : Nat) (sd : ScoreDict) (sp : WeightDict)
    (hnd : (sd.map Prod.fst).Nodup) (u : Nat) :
    u ∈ (set_weights m sd sp).stored.map Prod.fst ↔
      u ∈ (cut_to_max_allowed_weights sd m).map Prod.fst := by
  constructor
  · intro hu
    have hu2 : u ∈ (((cut_to_max_allowed_weights sd m).foldl
        (fun ws q => dictSet ws q.1
          (voteWeight (((cut_to_max_allowed_weights sd m).map Prod.snd).sum) q.2)) sp).filter
        (fun q => (cut_to_max_allowed_weights sd m).any (fun r => r.1 == q.1))).map
          Prod.fst := hu
    have := (mem_keys_filter _ (fun w => (cut_to_max_allowed_weights sd m).any
      (fun r => r.1 == w)) u).mp hu2
    exact (any_keys_iff _ _).mp this.1
  · intro hu
    rcases List.mem_map.mp hu with ⟨q, hq, rfl⟩
    have := set_weights_stored_get m sd sp hnd hq
    rw [mem_keys_iff, this]
    rfl

theorem set_weights_keys_nodup (m : Nat) (sd : ScoreDict) (sp : WeightDict)
    (hnds : (sp.map Prod.fst).Nodup) :
    ((set_weights m sd sp).stored.map Prod.fst).Nodup :=
  nodup_keys_filter _ (fun w => (cut_to_max_allowed_weights sd m).any (fun r => r.1 == w))
    (nodup_keys_foldl _ _ sp hnds)

theorem set_weights_snd_sum (m : Nat) (sd : ScoreDict) (sp : WeightDict)
    (hnd : (sd.map Prod.fst).Nodup) (hnds : (sp.map Prod.fst).Nodup) :
    ((set_weights m sd sp).stored.map Prod.snd).sum =
      ((cut_to_max_allowed_weights sd m).map
        (fun p => voteWeight (((cut_to_max_allowed_weights sd m).map Prod.snd).sum) p.2)).sum := by
  have hcnd := cut_keys_nodup m hnd
  have hsnd := set_weights_keys_nodup m sd sp hnds
  have h1 : (set_weights m sd sp).stored.map Prod.snd =
      (set_weights m sd sp).stored.map
        (fun p => voteWeight (((cut_to_max_allowed_weights sd m).map Prod.snd).sum)
          (scoreAt (cut_to_max_allowed_weights sd m) p.1)) := by
    apply List.map_congr_left
    intro p hp
    rcases set_weights_stored_entries m sd sp hnd hnds hp with ⟨s, hmem, hval⟩
    rw [hval, scoreAt_of_mem hcnd hmem]
  have hperm : List.Perm ((set_weights m sd sp).stored.map Prod.fst)
      ((cut_to_max_allowed_weights sd m).map Prod.fst) :=
    (List.perm_ext_iff_of_nodup hsnd hcnd).mpr (set_weights_keys_iff m sd sp hnd)
  have h2 := (hperm.map
    (fun u => voteWeight (((cut_to_max_allowed_weights sd m).map Prod.snd).sum)
      (scoreAt (cut_to_max_allowed_weights sd m) u))).sum_eq
  rw [List.map_map, List.map_map] at h2
  have h3 : (cut_to_max_allowed_weights sd m).map
      ((fun u => voteWeight (((cut_to_max_allowed_weights sd m).map Prod.snd).sum)
        (scoreAt (cut_to_max_allowed_weights sd m) u)) ∘ Prod.fst) =
      (cut_to_max_allowed_weights sd m).map
        (fun p => voteWeight (((cut_to_max_allowed_weights sd m).map Prod.snd).sum) p.2) := by
    apply List.map_congr_left
    intro p hp
    simp only [Function.comp]
    rw [scoreAt_of_mem hcnd hp]
  rw [h1, ← h3, ← h2]
  rfl

theorem sum_voteWeight_le (l : ScoreDict) (hnn : ∀ p ∈ l, 0 ≤ p.2) :
    ((l.map (fun p => voteWeight ((l.map Prod.snd).sum) p.2)).sum) ≤ 1000 := by
  by_cases h0 : (l.map Prod.snd).sum = 0
  · have hz : (l.map (fun p => voteWeight ((l.map Prod.snd).sum) p.2)).sum = 0 := by
      apply List.sum_eq_zero
      intro x hx
      rcases List.mem_map.mp hx with ⟨p, hp, rfl⟩
      simp [voteWeight, h0]
    rw [hz]
    norm_num
  · have hS0 : 0 ≤ (l.map Prod.snd).sum := by
      apply List.sum_nonneg
      intro x hx
      rcases List.mem_map.mp hx with ⟨p, hp, rfl⟩
      exact hnn p hp
    have hSpos : 0 < (l.map Prod.snd).sum := lt_of_le_of_ne hS0 (Ne.symm h0)
    have hcast : (((l.map (fun p => voteWeight ((l.map Prod.snd).sum) p.2)).sum : Int) : ℚ) ≤
        (1000 : ℚ) := by
      rw [Int.cast_list_sum, List.map_map]
      have hb : ((l.map (Int.cast ∘ fun p => voteWeight ((l.map Prod.snd).sum) p.2 :
          Nat × ℚ → ℚ)).sum) ≤ (l.map (fun p => p.2 * (1000 / (l.map Prod.snd).sum))).sum := by
        apply List.sum_le_sum
        intro p hp
        simp only [Function.comp]
        rw [voteWeight, if_neg h0, pyTrunc,
          if_pos (div_nonneg (mul_nonneg (hnn p hp) (by norm_num)) hSpos.le),
          mul_div_assoc]
        exact Int.floor_le _
      refine le_trans hb ?_
      rw [List.sum_map_mul_right, mul_comm, div_mul_cancel₀]
      exact h0
    exact_mod_cast hcast

/-- C2: for a score map with non-negative scores and positive sum,
`set_weights` assigns every UID of the (possibly truncated) score map the
weight `floor(score * 1000 / score_sum)`, the resulting weights sum to at
most 1000, and equal scores receive equal weights. -/
theorem set_weights_normalization (m : Nat) (sd : ScoreDict) (sp : WeightDict)
    (hnn : ∀ p ∈ sd, 0 ≤ p.2) (hpos : 0 < (sd.map Prod.snd).sum)
    (hnd : (sd.map Prod.fst).Nodup) (hnds : (sp.map Prod.fst).Nodup) :
    (∀ p ∈ cut_to_max_allowed_weights sd m,
      dictGet (set_weights m sd sp).stored p.1 =
        some ⌊p.2 * 1000 / (((cut_to_max_allowed_weights sd m).map Prod.snd).sum)⌋) ∧
    ((set_weights m sd sp).stored.map Prod.snd).sum ≤ 1000 ∧
    (∀ p q, p ∈ cut_to_max_allowed_weights sd m → q ∈ cut_to_max_allowed_weights sd m →
      p.2 = q.2 →
      dictGet (set_weights m sd sp).stored p.1 = dictGet (set_weights m sd sp).stored q.1) := by
  have hnncut : ∀ p ∈ cut_to_max_allowed_weights sd m, 0 ≤ p.2 :=
    fun p hp => hnn p (cut_mem_subset hp)
  refine ⟨?_, ?_, ?_⟩
  · intro p hp
    have hSpos := cut_sum_pos hnn hpos (List.ne_nil_of_mem hp)
    rw [set_weights_stored_get m sd sp hnd hp, voteWeight, if_neg (ne_of_gt hSpos), pyTrunc,
      if_pos (div_nonneg (mul_nonneg (hnncut p hp) (by norm_num)) hSpos.le)]
  · rw [set_weights_snd_sum m sd sp hnd hnds]
    exact sum_voteWeight_le _ hnncut
  · intro p q hp hq hpq
    rw [set_weights_stored_get m sd sp hnd hp, set_weights_stored_get m sd sp hnd hq, hpq]

/-- Witness for C2: the spec's own example, a score map `{1: 0.5, 2: 0.5}`
with `max_allowed = 2` and an empty previously stored map. -/
theorem set_weights_normalization_witness :
    (∀ p ∈ [((1 : Nat), (1 : ℚ)/2), (2, 1/2)], 0 ≤ p.2) ∧
    0 < (([((1 : Nat), (1 : ℚ)/2), (2, 1/2)]).map Prod.snd).sum ∧
    ((∀ p ∈ cut_to_max_allowed_weights [((1 : Nat), (1 : ℚ)/2), (2, 1/2)] 2,
      dictGet (set_weights 2 [((1 : Nat), (1 : ℚ)/2), (2, 1/2)] []).stored p.1 =
        some ⌊p.2 * 1000 /
          (((cut_to_max_allowed_weights [((1 : Nat), (1 : ℚ)/2), (2, 1/2)] 2).map
            Prod.snd).sum)⌋) ∧
    ((set_weights 2 [((1 : Nat), (1 : ℚ)/2), (2, 1/2)] []).stored.map Prod.snd).sum ≤ 1000 ∧
    (∀ p q, p ∈ cut_to_max_allowed_weights [((1 : Nat), (1 : ℚ)/2), (2, 1/2)] 2 →
      q ∈ cut_to_max_allowed_weights [((1 : Nat), (1 : ℚ)/2), (2, 1/2)] 2 →
      p.2 = q.2 →
      dictGet (set_weights 2 [((1 : Nat), (1 : ℚ)/2), (2, 1/2)] []).stored p.1 =
        dictGet (set_weights 2 [((1 : Nat), (1 : ℚ)/2), (2, 1/2)] []).stored q.1)) := by
  have hnn : ∀ p ∈ [((1 : Nat), (1 : ℚ)/2), (2, 1/2)], 0 ≤ p.2 := by
    intro p hp
    fin_cases hp <;> norm_num
  have hpos : 0 < (([((1 : Nat), (1 : ℚ)/2), (2, 1/2)]).map Prod.snd).sum := by
    norm_num
  have hnd : (([((1 : Nat), (1 : ℚ)/2), (2, 1/2)]).map Prod.fst).Nodup := by
    simp
  have hnds : (([] : WeightDict).map Prod.fst).Nodup := by
    simp
  exact ⟨hnn, hpos, set_weights_normalization 2 _ [] hnn hpos hnd hnds⟩

/-- C3: when every score in the score map is 0 the zero-sum branch of
`set_weights` runs (no division), every UID of the (possibly truncated) score
map is assigned weight 0, and the persisted weight map contains only zero
weights. -/
theorem set_weights_zero_scores (m : Nat) (sd : ScoreDict) (sp : WeightDict)
    (hz : ∀ p ∈ sd, p.2 = 0)
    (hnd : (sd.map Prod.fst).Nodup) (hnds : (sp.map Prod.fst).Nodup) :
    (∀ p ∈ cut_to_max_allowed_weights sd m,
      dictGet (set_weights m sd sp).stored p.1 = some 0) ∧
    (∀ p ∈ (set_weights m sd sp).stored, p.2 = 0) := by
  have hS : (((cut_to_max_allowed_weights sd m).map Prod.snd).sum) = 0 := by
    apply List.sum_eq_zero
    intro x hx
    rcases List.mem_map.mp hx with ⟨p, hp, rfl⟩
    exact hz p (cut_mem_subset hp)
  constructor
  · intro p hp
    rw [set_weights_stored_get m sd sp hnd hp, voteWeight, if_pos hS]
  · intro p hp
    rcases set_weights_stored_entries m sd sp hnd hnds hp with ⟨s, _, hval⟩
    rw [hval, voteWeight, if_pos hS]

/-- Witness for C3: the all-zero score map `{1: 0, 2: 0}` with
`max_allowed = 2` and a stale persisted entry for UID 7. -/
theorem set_weights_zero_scores_witness :
    (∀ p ∈ [((1 : Nat), (0 : ℚ)), (2, 0)], p.2 = 0) ∧
    ((∀ p ∈ cut_to_max_allowed_weights [((1 : Nat), (0 : ℚ)), (2, 0)] 2,
      dictGet (set_weights 2 [((1 : Nat), (0 : ℚ)), (2, 0)] [(7, 5)]).stored p.1 = some 0) ∧
    (∀ p ∈ (set_weights 2 [((1 : Nat), (0 : ℚ)), (2, 0)] [(7, 5)]).stored, p.2 = 0)) := by
  have hz : ∀ p ∈ [((1 : Nat), (0 : ℚ)), (2, 0)], p.2 = 0 := by
    intro p hp
    fin_cases hp <;> norm_num
  have hnd : (([((1 : Nat), (0 : ℚ)), (2, 0)]).map Prod.fst).Nodup := by
    simp
  have hnds : (([((7 : Nat), (5 : Int))]).map Prod.fst).Nodup := by
    simp
  exact ⟨hz, set_weights_zero_scores 2 _ [(7, 5)] hz hnd hnds⟩

/-- C4: after `set_weights` the persisted weight map holds exactly the UIDs
of the (possibly truncated) score map — previously persisted UIDs absent from
the current score map are pruned — and, when non-empty, exactly one vote call
is made whose parallel uid/weight sequences enumerate that map. -/
theorem set_weights_prunes_stale (m : Nat) (sd : ScoreDict) (sp : WeightDict)
    (hnd : (sd.map Prod.fst).Nodup) :
    (∀ u, u ∈ (set_weights m sd sp).stored.map Prod.fst ↔
      u ∈ (cut_to_max_allowed_weights sd m).map Prod.fst) ∧
    (∀ u, u ∈ sp.map Prod.fst → u ∉ (cut_to_max_allowed_weights sd m).map Prod.fst →
      u ∉ (set_weights m sd sp).stored.map Prod.fst) ∧
    ((set_weights m sd sp).stored ≠ [] →
      (set_weights m sd sp).votes =
        [((set_weights m sd sp).stored.map Prod.fst,
          (set_weights m sd sp).stored.map Prod.snd)]) ∧
    ((set_weights m sd sp).stored = [] → (set_weights m sd sp).votes = []) := by
  refine ⟨set_weights_keys_iff m sd sp hnd, ?_, ?_, ?_⟩
  · intro u _ hucut hu
    exact hucut ((set_weights_keys_iff m sd sp hnd u).mp hu)
  · intro hne
    show (if (set_weights m sd sp).stored.length > 0 then
      [((set_weights m sd sp).stored.map Prod.fst,
        (set_weights m sd sp).stored.map Prod.snd)] else []) = _
    rw [if_pos (List.length_pos.mpr hne)]
  · intro hemp
    show (if (set_weights m sd sp).stored.length > 0 then
      [((set_weights m sd sp).stored.map Prod.fst,
        (set_weights m sd sp).stored.map Prod.snd)] else []) = _
    rw [if_neg]
    rw [hemp]
    simp

/-- Witness for C4: score map `{1: 0.4, 2: 0.6}`, `max_allowed = 2`, and a
previously persisted map holding the stale UID 9. -/
theorem set_weights_prunes_stale_witness :
    (([((1 : Nat), (2 : ℚ)/5), (2, 3/5)]).map Prod.fst).Nodup ∧
    ((∀ u, u ∈ (set_weights 2 [((1 : Nat), (2 : ℚ)/5), (2, 3/5)] [(9, 4)]).stored.map
        Prod.fst ↔
      u ∈ (cut_to_max_allowed_weights [((1 : Nat), (2 : ℚ)/5), (2, 3/5)] 2).map Prod.fst) ∧
    (∀ u, u ∈ ([((9 : Nat), (4 : Int))]).map Prod.fst →
      u ∉ (cut_to_max_allowed_weights [((1 : Nat), (2 : ℚ)/5), (2, 3/5)] 2).map Prod.fst →
      u ∉ (set_weights 2 [((1 : Nat), (2 : ℚ)/5), (2, 3/5)] [(9, 4)]).stored.map Prod.fst) ∧
    ((set_weights 2 [((1 : Nat), (2 : ℚ)/5), (2, 3/5)] [(9, 4)]).stored ≠ [] →
      (set_weights 2 [((1 : Nat), (2 : ℚ)/5), (2, 3/5)] [(9, 4)]).votes =
        [((set_weights 2 [((1 : Nat), (2 : ℚ)/5), (2, 3/5)] [(9, 4)]).stored.map Prod.fst,
          (set_weights 2 [((1 : Nat), (2 : ℚ)/5), (2, 3/5)] [(9, 4)]).stored.map Prod.snd)]) ∧
    ((set_weights 2 [((1 : Nat), (2 : ℚ)/5), (2, 3/5)] [(9, 4)]).stored = [] →
      (set_weights 2 [((1 : Nat), (2 : ℚ)/5), (2, 3/5)] [(9, 4)]).votes = [])) := by
  have hnd : (([((1 : Nat), (2 : ℚ)/5), (2, 3/5)]).map Prod.fst).Nodup := by
    simp
  exact ⟨hnd, set_weights_prunes_stale 2 _ [(9, 4)] hnd⟩

theorem minerMatches_update (r : MinerRecord) (uid : Nat)
    (mk addr ipp tk : String) (v : ℚ) (gdb : String) (now : Nat) :
    minerMatches { r with uid := uid, miner_address := addr, miner_ip_port := ipp,
                          version := v, graph_db := gdb, timestamp := now } mk tk =
      minerMatches r mk tk := rfl

theorem filter_length_map_update (db : List MinerRecord) (uid : Nat)
    (mk addr ipp tk : String) (v : ℚ) (gdb : String) (now : Nat) :
    ((db.map (fun r =>
      if minerMatches r mk tk then
        { r with uid := uid, miner_address := addr, miner_ip_port := ipp,
                 version := v, graph_db := gdb, timestamp := now }
      else r)).filter (fun r => minerMatches r mk tk)).length =
      (db.filter (fun r => minerMatches r mk tk)).length := by
  induction db with
  | nil => rfl
  | cons a rest ih =>
    by_cases h : minerMatches a mk tk = true
    · have hupd : minerMatches { a with uid := uid, miner_address := addr,
                                        miner_ip_port := ipp, version := v,
                                        graph_db := gdb, timestamp := now } mk tk =
          true := h
      simp only [List.map_cons, if_pos h, List.filter_cons, hupd, h, if_pos,
        List.length_cons, ih]
    · simp only [List.map_cons, if_neg h, List.filter_cons]
      exact ih

theorem store_miner_metadata_count (db : List MinerRecord) (uid : Nat)
    (mk addr ipp tk : String) (v : ℚ) (gdb : String) (now : Nat)
    (hub : (db.filter (fun r => minerMatches r mk tk)).length ≤ 1) :
    ((store_miner_metadata db uid mk addr ipp tk v gdb now).filter
      (fun r => minerMatches r mk tk)).length = 1 := by
  unfold store_miner_metadata
  by_cases hany : (db.any fun r => minerMatches r mk tk) = true
  · rw [if_pos hany, filter_length_map_update]
    rcases List.any_eq_true.mp hany with ⟨r, hr, hm⟩
    have hmem : r ∈ db.filter (fun r => minerMatches r mk tk) :=
      List.mem_filter.mpr ⟨hr, hm⟩
    have h1 : 0 < (db.filter (fun r => minerMatches r mk tk)).length :=
      List.length_pos.mpr (List.ne_nil_of_mem hmem)
    omega
  · rw [if_neg hany, List.filter_append]
    have hdb : db.filter (fun r => minerMatches r mk tk) = [] := by
      rw [List.filter_eq_nil_iff]
      intro r hr hm
      exact hany (List.any_eq_true.mpr ⟨r, hr, hm⟩)
    rw [hdb]
    simp [minerMatches]

theorem store_miner_metadata_fields (db : List MinerRecord) (uid : Nat)
    (mk addr ipp tk : String) (v : ℚ) (gdb : String) (now : Nat)
    {r : MinerRecord} (hr : r ∈ store_miner_metadata db uid mk addr ipp tk v gdb now)
    (hm : minerMatches r mk tk = true) :
    r.uid = uid ∧ r.miner_address = addr ∧ r.miner_ip_port = ipp ∧
      r.version = v ∧ r.graph_db = gdb ∧ r.timestamp = now := by
  unfold store_miner_metadata at hr
  by_cases hany : (db.any fun r => minerMatches r mk tk) = true
  · rw [if_pos hany] at hr
    rcases List.mem_map.mp hr with ⟨r0, hr0, heq⟩
    by_cases h0 : minerMatches r0 mk tk = true
    · rw [if_pos h0] at heq
      rw [← heq]
      exact ⟨rfl, rfl, rfl, rfl, rfl, rfl⟩
    · rw [if_neg h0] at heq
      rw [← heq] at hm
      exact absurd hm h0
  · rw [if_neg hany] at hr
    rcases List.mem_append.mp hr with h | h
    · exact absurd (List.any_eq_true.mpr ⟨r, h, hm⟩) hany
    · rcases List.mem_singleton.mp h with rfl
      exact ⟨rfl, rfl, rfl, rfl, rfl, rfl⟩

/-- C5: the registry upsert is idempotent. Starting from any state satisfying
the `(miner_key, token)` uniqueness invariant, two `store_miner_metadata`
calls with identical arguments (at times `t1` then `t2`) leave exactly one
record for that pair, carrying the given fields and the timestamp of the
latest call. -/
theorem store_miner_metadata_idempotent (db : List MinerRecord) (uid : Nat)
    (mk addr ipp tk : String) (v : ℚ) (gdb : String) (t1 t2 : Nat)
    (hub : (db.filter (fun r => minerMatches r mk tk)).length ≤ 1) :
    ((store_miner_metadata (store_miner_metadata db uid mk addr ipp tk v gdb t1)
        uid mk addr ipp tk v gdb t2).filter (fun r => minerMatches r mk tk)).length = 1 ∧
    (∀ r ∈ store_miner_metadata (store_miner_metadata db uid mk addr ipp tk v gdb t1)
        uid mk addr ipp tk v gdb t2,
      minerMatches r mk tk = true →
      r.uid = uid ∧ r.miner_address = addr ∧ r.miner_ip_port = ipp ∧
        r.version = v ∧ r.graph_db = gdb ∧ r.timestamp = t2) := by
  have h1 := store_miner_metadata_count db uid mk addr ipp tk v gdb t1 hub
  constructor
  · exact store_miner_metadata_count _ uid mk addr ipp tk v gdb t2 (le_of_eq h1)
  · intro r hr hm
    exact store_miner_metadata_fields _ uid mk addr ipp tk v gdb t2 hr hm

/-- Witness for C5: a double upsert into the empty registry. -/
theorem store_miner_metadata_idempotent_witness :
    (([] : List MinerRecord).filter
      (fun r => minerMatches r "miner1" "PEPE")).length ≤ 1 ∧
    (((store_miner_metadata (store_miner_metadata [] 1 "miner1" "1.2.3.4" "8080" "PEPE"
        1 "neo4j" 10) 1 "miner1" "1.2.3.4" "8080" "PEPE" 1 "neo4j" 20).filter
        (fun r => minerMatches r "miner1" "PEPE")).length = 1 ∧
    (∀ r ∈ store_miner_metadata (store_miner_metadata [] 1 "miner1" "1.2.3.4" "8080" "PEPE"
        1 "neo4j" 10) 1 "miner1" "1.2.3.4" "8080" "PEPE" 1 "neo4j" 20,
      minerMatches r "miner1" "PEPE" = true →
      r.uid = 1 ∧ r.miner_address = "1.2.3.4" ∧ r.miner_ip_port = "8080" ∧
        r.version = 1 ∧ r.graph_db = "neo4j" ∧ r.timestamp = 20)) :=
  ⟨by simp,
   store_miner_metadata_idempotent [] 1 "miner1" "1.2.3.4" "8080" "PEPE" 1 "neo4j" 10 20
     (by simp)⟩

/-- Counterexample for C9: in a registry holding the same miner key under two
tokens, `update_miner_rank` changes the rank of the record with the other
token as well — the update is not scoped to one `(miner_key, token)` pair. -/
theorem update_miner_rank_changes_other_token :
    ((update_miner_rank twoTokenDb "miner1" 5).getD 1 default).rank = 5 ∧
    ((update_miner_rank twoTokenDb "miner1" 5).getD 1 default).token = "DOGE" ∧
    (twoTokenDb.getD 1 default).rank = 0 ∧
    ((update_miner_rank twoTokenDb "miner1" 5).getD 1 default).rank ≠
      (twoTokenDb.getD 1 default).rank := by
  refine ⟨?_, ?_, ?_, ?_⟩ <;> simp [update_miner_rank, twoTokenDb]

/-- C9 (amended): `update_miner_rank` is scoped by `miner_key` alone — it
sets the rank of every record whose miner key matches, across all tokens, and
leaves every record with a different miner key unchanged (all other fields of
every record are unchanged as well). -/
theorem update_miner_rank_key_scoped (db : List MinerRecord) (mk : String) (nr : ℚ) :
    (update_miner_rank db mk nr).length = db.length ∧
    (∀ i (h : i < db.length),
      (update_miner_rank db mk nr).get
          ⟨i, by simpa [update_miner_rank] using h⟩ =
        (if (db.get ⟨i, h⟩).miner_key = mk then { db.get ⟨i, h⟩ with rank := nr }
         else db.get ⟨i, h⟩)) := by
  constructor
  · simp [update_miner_rank]
  · intro i h
    simp only [update_miner_rank]
    rw [List.get_map]
    by_cases hk : (db.get ⟨i, h⟩).miner_key = mk
    · rw [if_pos (by simpa using hk), if_pos hk]
    · rw [if_neg (by simpa using hk), if_neg hk]

/-- Witness for C9 (amended): the second record of `twoTokenDb` shares the
miner key, so its rank is rewritten. -/
theorem update_miner_rank_key_scoped_witness :
    (update_miner_rank twoTokenDb "miner1" 5).get
        ⟨1, by simpa [update_miner_rank] using (by norm_num [twoTokenDb] : 1 < twoTokenDb.length)⟩ =
      (if (twoTokenDb.get ⟨1, by norm_num [twoTokenDb]⟩).miner_key = "miner1"
       then { twoTokenDb.get ⟨1, by norm_num [twoTokenDb]⟩ with rank := 5 }
       else twoTokenDb.get ⟨1, by norm_num [twoTokenDb]⟩) :=
  (update_miner_rank_key_scoped twoTokenDb "miner1" 5).2 1 (by norm_num [twoTokenDb])

theorem tweet_find_replace (db : TweetCacheState) (tid : String) (d : PyDateTime)
    (hany : (db.any fun r => r.tweet_id == tid) = true) :
    (db.map (fun r => if r.tweet_id == tid then { r with tweet_date := d } else r)).find?
      (fun r => r.tweet_id == tid) = some { tweet_id := tid, tweet_date := d } := by
  induction db with
  | nil => simp at hany
  | cons a rest ih =>
    by_cases h : (a.tweet_id == tid) = true
    · have hid : a.tweet_id = tid := by simpa using h
      simp only [List.map_cons, if_pos h]
      rw [List.find?_cons_of_pos _ (by simpa using h)]
      rw [show ({ a with tweet_date := d } : TweetCacheRow) =
        { tweet_id := tid, tweet_date := d } by rw [← hid]]
    · have hf : (a.tweet_id == tid) = false := by simpa using h
      simp only [List.any_cons, hf, Bool.false_or] at hany
      simp only [List.map_cons, if_neg h]
      simp only [List.find?_cons, hf]
      exact ih hany

theorem tweet_find_append (db : TweetCacheState) (tid : String) (d : PyDateTime)
    (hnone : (db.any fun r => r.tweet_id == tid) = false) :
    (db ++ [({ tweet_id := tid, tweet_date := d } : TweetCacheRow)]).find?
      (fun r => r.tweet_id == tid) =
      some { tweet_id := tid, tweet_date := d } := by
  induction db with
  | nil => simp [List.find?_cons]
  | cons a rest ih =>
    simp only [List.any_cons, Bool.or_eq_false_iff] at hnone
    simp only [List.cons_append, List.find?_cons, hnone.1]
    exact ih hnone.2

theorem get_store_tweet (db : TweetCacheState) (tid : String) (d : PyDateTime) :
    get_tweet_cache (store_tweet_cache db tid d) tid =
      some { tweet_id := tid, tweet_date := d.isoformat } := by
  unfold store_tweet_cache get_tweet_cache
  by_cases hany : (db.any fun r => r.tweet_id == tid) = true
  · rw [if_pos hany, tweet_find_replace db tid d hany]
    rfl
  · rw [if_neg hany, tweet_find_append db tid d (by rw [← Bool.not_eq_true]; exact hany)]
    rfl

theorem tweet_filter_length_replace (db : TweetCacheState) (tid : String)
    (d : PyDateTime) :
    ((db.map (fun r => if r.tweet_id == tid then { r with tweet_date := d } else r)).filter
      (fun r => r.tweet_id == tid)).length =
      (db.filter (fun r => r.tweet_id == tid)).length := by
  induction db with
  | nil => rfl
  | cons a rest ih =>
    by_cases h : (a.tweet_id == tid) = true
    · simp only [List.map_cons, if_pos h, List.filter_cons, h, if_pos, List.length_cons]
      rw [ih]
    · simp only [List.map_cons, if_neg h, List.filter_cons]
      exact ih

theorem tweet_filter_length_store (db : TweetCacheState) (tid : String) (d : PyDateTime)
    (hub : (db.filter (fun r => r.tweet_id == tid)).length ≤ 1) :
    ((store_tweet_cache db tid d).filter (fun r => r.tweet_id == tid)).length = 1 := by
  unfold store_tweet_cache
  by_cases hany : (db.any fun r => r.tweet_id == tid) = true
  · rw [if_pos hany, tweet_filter_length_replace]
    rcases List.any_eq_true.mp hany with ⟨r, hr, hm⟩
    have hmem : r ∈ db.filter (fun r => r.tweet_id == tid) := List.mem_filter.mpr ⟨hr, hm⟩
    have h1 : 0 < (db.filter (fun r => r.tweet_id == tid)).length :=
      List.length_pos.mpr (List.ne_nil_of_mem hmem)
    omega
  · rw [if_neg hany, List.filter_append]
    have hdb : db.filter (fun r => r.tweet_id == tid) = [] := by
      rw [List.filter_eq_nil_iff]
      intro r hr hm
      exact hany (List.any_eq_true.mpr ⟨r, hr, hm⟩)
    rw [hdb]
    simp

theorem user_find_replace (db : UserCacheState) (uid : String) (fc : Int) (vf : Bool)
    (hany : (db.any fun r => r.user_id == uid) = true) :
    (db.map (fun r => if r.user_id == uid then
        { r with follower_count := fc, verified := vf } else r)).find?
      (fun r => r.user_id == uid) =
      some { user_id := uid, follower_count := fc, verified := vf } := by
  induction db with
  | nil => simp at hany
  | cons a rest ih =>
    by_cases h : (a.user_id == uid) = true
    · have hid : a.user_id = uid := by simpa using h
      simp only [List.map_cons, if_pos h]
      rw [List.find?_cons_of_pos _ (by simpa using h)]
      rw [show ({ a with follower_count := fc, verified := vf } : UserCacheRow) =
        { user_id := uid, follower_count := fc, verified := vf } by rw [← hid]]
    · have hf : (a.user_id == uid) = false := by simpa using h
      simp only [List.any_cons, hf, Bool.false_or] at hany
      simp only [List.map_cons, if_neg h]
      simp only [List.find?_cons, hf]
      exact ih hany

theorem user_find_append (db : UserCacheState) (uid : String) (fc : Int) (vf : Bool)
    (hnone : (db.any fun r => r.user_id == uid) = false) :
    (db ++ [({ user_id := uid, follower_count := fc, verified := vf } : UserCacheRow)]).find?
      (fun r => r.user_id == uid) =
      some { user_id := uid, follower_count := fc, verified := vf } := by
  induction db with
  | nil => simp [List.find?_cons]
  | cons a rest ih =>
    simp only [List.any_cons, Bool.or_eq_false_iff] at hnone
    simp only [List.cons_append, List.find?_cons, hnone.1]
    exact ih hnone.2

theorem get_store_user (db : UserCacheState) (uid : String) (fc : Int) (vf : Bool) :
    get_user_cache (store_user_cache db uid fc vf) uid =
      some { user_id := uid, follower_count := toString fc, verified := vf } := by
  unfold store_user_cache get_user_cache
  by_cases hany : (db.any fun r => r.user_id == uid) = true
  · rw [if_pos hany, user_find_replace db uid fc vf hany]
    rfl
  · rw [if_neg hany, user_find_append db uid fc vf (by rw [← Bool.not_eq_true]; exact hany)]
    rfl

theorem user_filter_length_replace (db : UserCacheState) (uid : String)
    (fc : Int) (vf : Bool) :
    ((db.map (fun r => if r.user_id == uid then
        { r with follower_count := fc, verified := vf } else r)).filter
      (fun r => r.user_id == uid)).length =
      (db.filter (fun r => r.user_id == uid)).length := by
  induction db with
  | nil => rfl
  | cons a rest ih =>
    by_cases h : (a.user_id == uid) = true
    · simp only [List.map_cons, if_pos h, List.filter_cons, h, if_pos, List.length_cons]
      rw [ih]
    · simp only [List.map_cons, if_neg h, List.filter_cons]
      exact ih

theorem user_filter_length_store (db : UserCacheState) (uid : String) (fc : Int) (vf : Bool)
    (hub : (db.filter (fun r => r.user_id == uid)).length ≤ 1) :
    ((store_user_cache db uid fc vf).filter (fun r => r.user_id == uid)).length = 1 := by
  unfold store_user_cache
  by_cases hany : (db.any fun r => r.user_id == uid) = true
  · rw [if_pos hany, user_filter_length_replace]
    rcases List.any_eq_true.mp hany with ⟨r, hr, hm⟩
    have hmem : r ∈ db.filter (fun r => r.user_id == uid) := List.mem_filter.mpr ⟨hr, hm⟩
    have h1 : 0 < (db.filter (fun r => r.user_id == uid)).length :=
      List.length_pos.mpr (List.ne_nil_of_mem hmem)
    omega
  · rw [if_neg hany, List.filter_append]
    have hdb : db.filter (fun r => r.user_id == uid) = [] := by
      rw [List.filter_eq_nil_iff]
      intro r hr hm
      exact hany (List.any_eq_true.mpr ⟨r, hr, hm⟩)
    rw [hdb]
    simp


/-- C6: cache round-trip for both caches. `store` then `get` returns the
stored fields (dates serialised with `isoformat`, follower counts with
`str`); a second `store` with different fields followed by `get` returns the
updated fields; and, starting from a state with at most one row per id, the
store keeps exactly one row per id (upsert, not append). -/
theorem cache_round_trip (tdb : TweetCacheState) (udb : UserCacheState)
    (tid : String) (d d2 : PyDateTime) (uid : String) (fc fc2 : Int) (vf vf2 : Bool)
    (htub : (tdb.filter (fun r => r.tweet_id == tid)).length ≤ 1)
    (huub : (udb.filter (fun r => r.user_id == uid)).length ≤ 1) :
    (get_tweet_cache (store_tweet_cache tdb tid d) tid =
      some { tweet_id := tid, tweet_date := d.isoformat }) ∧
    (get_tweet_cache (store_tweet_cache (store_tweet_cache tdb tid d) tid d2) tid =
      some { tweet_id := tid, tweet_date := d2.isoformat }) ∧
    (((store_tweet_cache (store_tweet_cache tdb tid d) tid d2).filter
        (fun r => r.tweet_id == tid)).length = 1) ∧
    (get_user_cache (store_user_cache udb uid fc vf) uid =
      some { user_id := uid, follower_count := toString fc, verified := vf }) ∧
    (get_user_cache (store_user_cache (store_user_cache udb uid fc vf) uid fc2 vf2) uid =
      some { user_id := uid, follower_count := toString fc2, verified := vf2 }) ∧
    (((store_user_cache (store_user_cache udb uid fc vf) uid fc2 vf2).filter
        (fun r => r.user_id == uid)).length = 1) := by
  refine ⟨get_store_tweet tdb tid d, get_store_tweet _ tid d2, ?_,
    get_store_user udb uid fc vf, get_store_user _ uid fc2 vf2, ?_⟩
  · exact tweet_filter_length_store _ tid d2
      (le_of_eq (tweet_filter_length_store tdb tid d htub))
  · exact user_filter_length_store _ uid fc2 vf2
      (le_of_eq (user_filter_length_store udb uid fc vf huub))

/-- Witness for C6: both caches start empty; a tweet date is stored and
overwritten, and a user record is stored and overwritten. -/
theorem cache_round_trip_witness :
    (([] : TweetCacheState).filter (fun r => r.tweet_id == "t1")).length ≤ 1 ∧
    (([] : UserCacheState).filter (fun r => r.user_id == "u1")).length ≤ 1 ∧
    ((get_tweet_cache (store_tweet_cache [] "t1"
        { year := 2024, month := 1, day := 2, hour := 3, minute := 4, second := 5 }) "t1" =
      some { tweet_id := "t1",
             tweet_date := PyDateTime.isoformat
               { year := 2024, month := 1, day := 2, hour := 3, minute := 4, second := 5 } }) ∧
    (get_tweet_cache (store_tweet_cache (store_tweet_cache [] "t1"
        { year := 2024, month := 1, day := 2, hour := 3, minute := 4, second := 5 }) "t1"
        { year := 2025, month := 6, day := 7, hour := 8, minute := 9, second := 10 }) "t1" =
      some { tweet_id := "t1",
             tweet_date := PyDateTime.isoformat
               { year := 2025, month := 6, day := 7, hour := 8, minute := 9, second := 10 } }) ∧
    (((store_tweet_cache (store_tweet_cache [] "t1"
        { year := 2024, month := 1, day := 2, hour := 3, minute := 4, second := 5 }) "t1"
        { year := 2025, month := 6, day := 7, hour := 8, minute := 9, second := 10 }).filter
        (fun r => r.tweet_id == "t1")).length = 1) ∧
    (get_user_cache (store_user_cache [] "u1" 900 false) "u1" =
      some { user_id := "u1", follower_count := toString (900 : Int), verified := false }) ∧
    (get_user_cache (store_user_cache (store_user_cache [] "u1" 900 false) "u1" 1200 true)
        "u1" =
      some { user_id := "u1", follower_count := toString (1200 : Int), verified := true }) ∧
    (((store_user_cache (store_user_cache [] "u1" 900 false) "u1" 1200 true).filter
        (fun r => r.user_id == "u1")).length = 1)) :=
  ⟨by simp, by simp,
   cache_round_trip [] [] "t1"
     { year := 2024, month := 1, day := 2, hour := 3, minute := 4, second := 5 }
     { year := 2025, month := 6, day := 7, hour := 8, minute := 9, second := 10 }
     "u1" 900 1200 false true (by simp) (by simp)⟩

/-- C7: once the termination event is observed set, `validation_loop` starts
no new iteration. The flag is checked at the loop top, immediately after
`validate_step`, and after the cancellable sleep wait: every recorded
iteration start saw the flag unset, a loop entered with the flag set runs no
iteration at all, and — for a monotone (sticky) event — every iteration
started strictly before any clock at which the event is set. -/
theorem validation_loop_no_iteration_after_set (term needSleep : Nat → Bool)
    (hmono : ∀ i j, i ≤ j → term i = true → term j = true) :
    (∀ fuel c s, s ∈ validation_loop term needSleep fuel c → term s = false) ∧
    (∀ fuel c, term c = true → validation_loop term needSleep fuel c = []) ∧
    (∀ fuel c t0, term t0 = true →
      ∀ s ∈ validation_loop term needSleep fuel c, s < t0) := by
  have h2 : ∀ fuel c, term c = true → validation_loop term needSleep fuel c = [] := by
    intro fuel c hc
    cases fuel with
    | zero => rfl
    | succ k => simp [validation_loop, hc]
  have h1 : ∀ fuel c s, s ∈ validation_loop term needSleep fuel c → term s = false := by
    intro fuel
    induction fuel with
    | zero =>
      intro c s hs
      simp [validation_loop] at hs
    | succ k ih =>
      intro c s hs
      by_cases hc : term c = true
      · rw [h2 (k + 1) c hc] at hs
        cases hs
      · simp only [validation_loop] at hs
        rw [if_neg hc] at hs
        rcases List.mem_cons.mp hs with rfl | hs2
        · exact Bool.eq_false_iff.mpr hc
        · by_cases h1c : term (c + 1) = true
          · rw [if_pos h1c] at hs2
            cases hs2
          · rw [if_neg h1c] at hs2
            by_cases hn : needSleep c = true
            · rw [if_pos hn] at hs2
              by_cases h2c : term (c + 2) = true
              · rw [if_pos h2c] at hs2
                cases hs2
              · rw [if_neg h2c] at hs2
                exact ih _ _ hs2
            · rw [if_neg hn] at hs2
              exact ih _ _ hs2
  refine ⟨h1, h2, ?_⟩
  intro fuel c t0 ht0 s hs
  by_contra hlt
  push_neg at hlt
  have hset := hmono t0 s hlt ht0
  rw [h1 fuel c s hs] at hset
  cases hset

/-- Witness for C7: a sticky event that becomes set at clock 5; the loop run
from clock 0 records iterations at clocks 0 and 3 only, both before 5. -/
theorem validation_loop_no_iteration_after_set_witness :
    (∀ i j, i ≤ j → decide (5 ≤ i) = true → decide (5 ≤ j) = true) ∧
    validation_loop (fun t => decide (5 ≤ t)) (fun _ => true) 10 0 = [0, 3] ∧
    ((∀ fuel c s, s ∈ validation_loop (fun t => decide (5 ≤ t)) (fun _ => true) fuel c →
      decide (5 ≤ s) = false) ∧
    (∀ fuel c, decide (5 ≤ c) = true →
      validation_loop (fun t => decide (5 ≤ t)) (fun _ => true) fuel c = []) ∧
    (∀ fuel c t0, decide (5 ≤ t0) = true →
      ∀ s ∈ validation_loop (fun t => decide (5 ≤ t)) (fun _ => true) fuel c, s < t0)) := by
  refine ⟨?_, by decide, ?_⟩
  · intro i j hij hi
    simp only [decide_eq_true_eq] at *
    omega
  · apply validation_loop_no_iteration_after_set
    intro i j hij hi
    simp only [decide_eq_true_eq] at *
    omega

/-- C8: per-miner failure isolation. An exception raised during a miner's
discovery call or its challenge call makes `_challenge_miner` return `None`
rather than propagate; in the score-map construction of `validate_step` a
`None` response is scored 0 while every other miner's response is still
scored on its own, and every miner in the response list receives an entry. -/
theorem challenge_failure_isolation (env : ChallengeEnv) (d : Discovery)
    (msg msg2 : String) (ccall : CallResult ChallengeData)
    (tdb : TweetCacheState) (udb : UserCacheState)
    (multiplier : Nat → ℚ) (adjusted_weights : String → ℚ) (total_weight : ℚ)
    (responses : List (Nat × Option TwitterChallengeMinerResponse)) :
    ((_challenge_miner env (CallResult.exn msg) ccall tdb udb).1 = none) ∧
    ((_challenge_miner env (CallResult.ok d) (CallResult.exn msg2) tdb udb).1 = none) ∧
    (∀ uid, (uid, (none : Option TwitterChallengeMinerResponse)) ∈ responses →
      (uid, (0 : ℚ)) ∈ validate_step_scores multiplier adjusted_weights total_weight
        responses) ∧
    (∀ uid r, (uid, some r) ∈ responses →
      (uid, scoreMiner (some r) (multiplier uid) * (adjusted_weights r.token / total_weight)) ∈
        validate_step_scores multiplier adjusted_weights total_weight responses) ∧
    ((validate_step_scores multiplier adjusted_weights total_weight responses).length =
      responses.length) := by
  refine ⟨rfl, rfl, ?_, ?_, List.length_map _ _⟩
  · intro uid hm
    exact List.mem_map_of_mem _ hm
  · intro uid r hm
    exact List.mem_map_of_mem _ hm

/-- Witness for C8: one failing miner (UID 0) and one healthy miner (UID 1)
in the same response list. -/
theorem challenge_failure_isolation_witness :
    (((0 : Nat), (none : Option TwitterChallengeMinerResponse)) ∈
      [((0 : Nat), (none : Option TwitterChallengeMinerResponse)),
       (1, some { token := "PEPE", version := 1, graph_db := "neo4j",
                  challenge_response :=
                    { token := "PEPE",
                      output := { tweet_id := some "t1", user_id := some "u1",
                                  tweet_date := some "2024-01-01T00:00:00",
                                  follower_count := some "10" } },
                  failed_challenges := 0 })]) ∧
    (((0 : Nat), (0 : ℚ)) ∈ validate_step_scores (fun _ => 1) (fun _ => 1) 1
      [((0 : Nat), (none : Option TwitterChallengeMinerResponse)),
       (1, some { token := "PEPE", version := 1, graph_db := "neo4j",
                  challenge_response :=
                    { token := "PEPE",
                      output := { tweet_id := some "t1", user_id := some "u1",
                                  tweet_date := some "2024-01-01T00:00:00",
                                  follower_count := some "10" } },
                  failed_challenges := 0 })]) := by
  constructor
  · exact List.mem_cons_self _ _
  · exact (challenge_failure_isolation
      { get_tweet_details := fun _ => none, get_user_details := fun _ => none,
        fromiso := fun _ => none, parse_actual_date := fun _ => none }
      { token := "PEPE", version := 1, graph_db := "neo4j" } "boom" "boom"
      (CallResult.exn "boom") [] [] (fun _ => 1) (fun _ => 1) 1 _).2.2.1 0
      (List.mem_cons_self _ _)

theorem tweetPhase_cases (env : ChallengeEnv) (tdb : TweetCacheState)
    (tid : Option String) :
    (tweetPhase env tdb tid).1 = 0 ∨
    ((tweetPhase env tdb tid).1 = 1 ∧ (tweetPhase env tdb tid).2.1 = none) := by
  simp only [tweetPhase]
  cases tid with
  | none => simp
  | some tid =>
    cases hget : get_tweet_cache tdb tid with
    | some c => simp [hget]
    | none =>
      cases hdet : env.get_tweet_details tid with
      | some d => simp [hget, hdet]
      | none => simp [hget, hdet]

theorem datePhase_bound (env : ChallengeEnv) (failed1 : Nat)
    (expected actual : Option String) {f2 : Nat}
    (h : datePhase env failed1 expected actual = some f2) :
    (expected = none → f2 = failed1) ∧ f2 ≤ failed1 + 1 := by
  cases expected with
  | none =>
    simp only [datePhase] at h
    have hf : f2 = failed1 := (Option.some.inj h).symm
    exact ⟨fun _ => hf, by omega⟩
  | some ed =>
    simp only [datePhase] at h
    refine ⟨fun hc => Option.noConfusion hc, ?_⟩
    cases hiso : env.fromiso ed with
    | none =>
      simp only [hiso] at h
      have h2 : failed1 + 1 = f2 := Option.some.inj h
      omega
    | some e =>
      simp only [hiso] at h
      cases actual with
      | none => exact Option.noConfusion h
      | some ad =>
        cases hpa : env.parse_actual_date ad with
        | none =>
          simp only [hpa] at h
          have h2 : failed1 + 1 = f2 := Option.some.inj h
          omega
        | some a =>
          simp only [hpa] at h
          by_cases hne : a ≠ e
          · rw [if_pos hne] at h
            have h2 : failed1 + 1 = f2 := Option.some.inj h
            omega
          · rw [if_neg hne] at h
            have h2 : failed1 = f2 := Option.some.inj h
            omega

theorem userPhase_bound (env : ChallengeEnv) (udb : UserCacheState) (failed2 : Nat)
    (uid : Option String) : (userPhase env udb failed2 uid).1 ≤ failed2 + 1 := by
  simp only [userPhase]
  cases uid with
  | none => simp
  | some u =>
    cases hget : get_user_cache udb u with
    | some c => simp [hget]
    | none =>
      cases hdet : env.get_user_details u with
      | some fv => simp [hget, hdet]
      | none => simp [hget, hdet]

/-- C10: every challenge response actually produced by `_perform_challenges`
has at most 2 failed challenges — the date comparison only runs when the
tweet was found, so the tweet-not-found and date-mismatch failures are
mutually exclusive and only three checks exist — hence the
`failed_challenges == 3` branch of `_score_miner` is unreachable for such
responses. -/
theorem perform_challenges_failed_le_two (env : ChallengeEnv)
    (discovery : Discovery) (call : CallResult ChallengeData)
    (tdb : TweetCacheState) (udb : UserCacheState)
    {r : TwitterChallengeMinerResponse}
    (hr : (_perform_challenges env discovery call tdb udb).1 = some r) :
    r.failed_challenges ≤ 2 ∧ r.failed_challenges ≠ 3 := by
  suffices hle : r.failed_challenges ≤ 2 by
    exact ⟨hle, by omega⟩
  unfold _perform_challenges at hr
  cases call with
  | exn m => cases hr
  | ok cd =>
    simp only at hr
    cases hdp : datePhase env (tweetPhase env tdb cd.output.tweet_id).1
        (tweetPhase env tdb cd.output.tweet_id).2.1 cd.output.tweet_date with
    | none =>
      rw [hdp] at hr
      cases hr
    | some f2 =>
      rw [hdp] at hr
      have hrec := (Option.some.inj hr).symm
      have hfc : r.failed_challenges =
          (userPhase env udb f2 cd.output.user_id).1 := by
        rw [hrec]
      have huser := userPhase_bound env udb f2 cd.output.user_id
      have hf2 : f2 ≤ 1 := by
        rcases tweetPhase_cases env tdb cd.output.tweet_id with h0 | ⟨h1, hnone⟩
        · have := (datePhase_bound env _ _ _ hdp).2
          omega
        · have := (datePhase_bound env _ _ _ hdp).1 hnone
          omega
      omega

/-- Witness for C10: a miner answer whose tweet id is unknown to cache and
lookup and whose user id is unknown as well — the response carries exactly 2
failed challenges, never 3. -/
theorem perform_challenges_failed_le_two_witness :
    ((_perform_challenges
      { get_tweet_details := fun _ => none, get_user_details := fun _ => none,
        fromiso := fun _ => none, parse_actual_date := fun _ => none }
      { token := "PEPE", version := 1, graph_db := "neo4j" }
      (CallResult.ok
        { token := some "PEPE",
          output := { tweet_id := some "t404", user_id := some "u404",
                      tweet_date := some "2024-01-01T00:00:00",
                      follower_count := some "10" } }) [] []).1 =
      some { token := "PEPE", version := 1, graph_db := "neo4j",
             challenge_response :=
               { token := "PEPE",
                 output := { tweet_id := some "t404", user_id := some "u404",
                             tweet_date := some "2024-01-01T00:00:00",
                             follower_count := some "10" } },
             failed_challenges := 2 }) ∧
    ({ token := "PEPE", version := 1, graph_db := "neo4j",
       challenge_response :=
         { token := "PEPE",
           output := { tweet_id := some "t404", user_id := some "u404",
                       tweet_date := some "2024-01-01T00:00:00",
                       follower_count := some "10" } },
       failed_challenges := 2 : TwitterChallengeMinerResponse}.failed_challenges ≤ 2 ∧
     { token := "PEPE", version := 1, graph_db := "neo4j",
       challenge_response :=
         { token := "PEPE",
           output := { tweet_id := some "t404", user_id := some "u404",
                       tweet_date := some "2024-01-01T00:00:00",
                       follower_count := some "10" } },
       failed_challenges := 2 : TwitterChallengeMinerResponse}.failed_challenges ≠ 3) := by
  constructor
  · rfl
  · exact perform_challenges_failed_le_two
      { get_tweet_details := fun _ => none, get_user_details := fun _ => none,
        fromiso := fun _ => none, parse_actual_date := fun _ => none }
      { token := "PEPE", version := 1, graph_db := "neo4j" }
      (CallResult.ok
        { token := some "PEPE",
          output := { tweet_id := some "t404", user_id := some "u404",
                      tweet_date := some "2024-01-01T00:00:00",
                      follower_count := some "10" } }) [] [] rfl

end CryptoInsights
